import Mathlib

set_option linter.unusedSectionVars false
set_option linter.unusedVariables false

/-!
Verification of the batched tridiagonal (Thomas-algorithm) solvers from the
`mitgcm_demo` family of Kokkos kernels.

We shallowly embed the kernels over an arbitrary field `α` (exact arithmetic
standing in for `double`):

* grids `a, b, c, y` are functions `ℕ → ℕ → α` (system index `i`, level `k`);
* every `parallel_for` pass of the naive solver becomes a simultaneous
  pointwise grid update (its iterations write disjoint locations and read
  only locations that pass does not write);
* the sequential `k`-loops of the fused/optimized team body become structural
  recursions along `k` (`fwd` for the forward sweep filling the team-local
  scratch `c_prime`/`y_prime`, `backFrom` for the in-place backward sweep);
* the `k = 1 .. nk-1` / `k = nk-2 .. 0` driver loops of the naive solver
  become `List.foldl` over `List.range (nk-1)`.

The problem generator `init_matrices` is embedded over `ℝ` because it uses
`sin`/`cos`.
-/

/-- The four `ni × nk` grids handed to a solver: sub-diagonal `a`, main
diagonal `b`, super-diagonal `c` and right-hand side / result buffer `y`.
Mirrors the four `View<double**>` arguments of the kernels. -/
structure Grids (α : Type) where
  a : ℕ → ℕ → α
  b : ℕ → ℕ → α
  c : ℕ → ℕ → α
  y : ℕ → ℕ → α

variable {α : Type} [Field α] [DecidableEq α]

/-- One row's forward sweep: `(fwd a b c y k) = (c_prime[k], y_prime[k])`.
Translates the sequential forward loop of the team body of
`solve_tridiagonal_kokkos_optimized` (kernel.cpp lines 44-65): level `0`
divides by `b 0` when it is nonzero and otherwise writes `(0,0)`; level
`k+1` forms `tmpVar = b(k+1) - a(k+1)*c_prime[k]` and divides by it when it
is nonzero, otherwise writes `(0,0)`. -/
def fwd (a b c y : ℕ → α) : ℕ → α × α
  | 0 =>
    if b 0 ≠ 0 then (c 0 * (1 / b 0), y 0 * (1 / b 0)) else (0, 0)
  | k + 1 =>
    if b (k + 1) - a (k + 1) * (fwd a b c y k).1 ≠ 0 then
      (c (k + 1) * (1 / (b (k + 1) - a (k + 1) * (fwd a b c y k).1)),
       (y (k + 1) - a (k + 1) * (fwd a b c y k).2) *
         (1 / (b (k + 1) - a (k + 1) * (fwd a b c y k).1)))
    else (0, 0)

/-- The pivot actually divided by at level `k` of one row's forward sweep:
`b 0` at level `0`, and `tmpVar = b k - a k * c_prime[k-1]` at later levels. -/
def pivot (a b c y : ℕ → α) : ℕ → α
  | 0 => b 0
  | k + 1 => b (k + 1) - a (k + 1) * (fwd a b c y k).1

/-- One row's backward sweep, counted from the last level: `backFrom nk j`
is the solution value at level `nk-1-j`.  Translates the in-place backward
loop of the team body (kernel.cpp lines 67-73): the last level copies
`y_prime[nk-1]`, and each earlier level computes
`y_prime[k] - c_prime[k] * y(i,k+1)` where `y(i,k+1)` already holds the
solution of the next level. -/
def backFrom (nk : ℕ) (a b c y : ℕ → α) : ℕ → α
  | 0 => (fwd a b c y (nk - 1)).2
  | j + 1 =>
    (fwd a b c y (nk - 2 - j)).2 -
      (fwd a b c y (nk - 2 - j)).1 * backFrom nk a b c y j

/-- The solution of one row at level `k` (the value the team body leaves in
`y(i,k)`). -/
def thomasRow (nk : ℕ) (a b c y : ℕ → α) (k : ℕ) : α :=
  backFrom nk a b c y (nk - 1 - k)

/-- The fused team-local solver (kernel.cpp 21-78): one team per system `i`,
team-private scratch `c_prime`/`y_prime` (the recursion `fwd`), forward and
backward sweeps as sequential loops inside the team, results written in
place into `y(i,k)` for `i < ni`, `k < nk`; `a`, `b`, `c` are only read. -/
def solve_tridiagonal_kokkos_optimized (ni nk : ℕ) (g : Grids α) : Grids α :=
  { g with
    y := fun i k =>
      if i < ni ∧ k < nk then thomasRow nk (g.a i) (g.b i) (g.c i) (g.y i) k
      else g.y i k }

/-- The `forward_sweep_first` pass of the naive solver (kernel.cpp 94-103):
one parallel pass over all systems `i < ni`, writing `c_prime(i,0)` and
`y_prime(i,0)`. `st` is the scratch pair `(c_prime, y_prime)`. -/
def forward_sweep_first (ni : ℕ) (g : Grids α)
    (st : (ℕ → ℕ → α) × (ℕ → ℕ → α)) : (ℕ → ℕ → α) × (ℕ → ℕ → α) :=
  (fun i k =>
    if i < ni ∧ k = 0 then
      (if g.b i 0 ≠ 0 then g.c i 0 * (1 / g.b i 0) else 0)
    else st.1 i k,
   fun i k =>
    if i < ni ∧ k = 0 then
      (if g.b i 0 ≠ 0 then g.y i 0 * (1 / g.b i 0) else 0)
    else st.2 i k)

/-- The `forward_sweep` pass at level `kk ≥ 1` of the naive solver
(kernel.cpp 106-118): one parallel pass over `i < ni` writing
`c_prime(i,kk)` and `y_prime(i,kk)` from the level-`kk-1` scratch values. -/
def forward_sweep (ni kk : ℕ) (g : Grids α)
    (st : (ℕ → ℕ → α) × (ℕ → ℕ → α)) : (ℕ → ℕ → α) × (ℕ → ℕ → α) :=
  (fun i k =>
    if i < ni ∧ k = kk then
      (if g.b i kk - g.a i kk * st.1 i (kk - 1) ≠ 0 then
        g.c i kk * (1 / (g.b i kk - g.a i kk * st.1 i (kk - 1)))
      else 0)
    else st.1 i k,
   fun i k =>
    if i < ni ∧ k = kk then
      (if g.b i kk - g.a i kk * st.1 i (kk - 1) ≠ 0 then
        (g.y i kk - g.a i kk * st.2 i (kk - 1)) *
          (1 / (g.b i kk - g.a i kk * st.1 i (kk - 1)))
      else 0)
    else st.2 i k)

/-- The `backward_sweep_last` pass (kernel.cpp 123-125): writes
`y(i,nk-1) = y_prime(i,nk-1)` for every `i < ni`. -/
def backward_sweep_last (ni nk : ℕ) (yp y : ℕ → ℕ → α) : ℕ → ℕ → α :=
  fun i k => if i < ni ∧ k = nk - 1 then yp i (nk - 1) else y i k

/-- The `backward_sweep` pass at level `kk` (kernel.cpp 128-132): writes
`y(i,kk) = y_prime(i,kk) - c_prime(i,kk) * y(i,kk+1)` for every `i < ni`. -/
def backward_sweep (ni kk : ℕ) (cp yp y : ℕ → ℕ → α) : ℕ → ℕ → α :=
  fun i k => if i < ni ∧ k = kk then yp i kk - cp i kk * y i (kk + 1) else y i k

/-- The forward phase of the naive solver: the `forward_sweep_first` pass
followed by the `k = 1 .. nk-1` loop of `forward_sweep` passes.  The scratch
Views `c_prime`/`y_prime` are fresh zero-initialized allocations
(kernel.cpp 89-90). -/
def naive_forward (ni nk : ℕ) (g : Grids α) : (ℕ → ℕ → α) × (ℕ → ℕ → α) :=
  (List.range (nk - 1)).foldl (fun st j => forward_sweep ni (j + 1) g st)
    (forward_sweep_first ni g (fun _ _ => 0, fun _ _ => 0))

/-- The naive row-parallel solver (kernel.cpp 80-136): forward phase, then
`backward_sweep_last`, then the `k = nk-2 .. 0` loop of `backward_sweep`
passes, each pass parallel over systems.  Only `y` is written back. -/
def solve_tridiagonal_kokkos_naive (ni nk : ℕ) (g : Grids α) : Grids α :=
  { g with
    y := (List.range (nk - 1)).foldl
      (fun yy j =>
        backward_sweep ni (nk - 2 - j) (naive_forward ni nk g).1
          (naive_forward ni nk g).2 yy)
      (backward_sweep_last ni nk (naive_forward ni nk g).2 g.y) }

namespace MitgcmDemo

/-!
The demo variant `src/kokkos/mitgcm_demo/src/kernel.cpp` contains its own
`solve_tridiagonal_kokkos` (lines 9-55): the same pass structure as the
reference repository's naive solver, translated here independently.
-/

/-- `forward_sweep_first` pass of the demo kernel (demo kernel.cpp 18-27). -/
def forward_sweep_first (ni : ℕ) (g : Grids α)
    (st : (ℕ → ℕ → α) × (ℕ → ℕ → α)) : (ℕ → ℕ → α) × (ℕ → ℕ → α) :=
  (fun i k =>
    if i < ni ∧ k = 0 then
      (if g.b i 0 ≠ 0 then g.c i 0 * (1 / g.b i 0) else 0)
    else st.1 i k,
   fun i k =>
    if i < ni ∧ k = 0 then
      (if g.b i 0 ≠ 0 then g.y i 0 * (1 / g.b i 0) else 0)
    else st.2 i k)

/-- `forward_sweep` pass at level `kk` of the demo kernel
(demo kernel.cpp 30-42). -/
def forward_sweep (ni kk : ℕ) (g : Grids α)
    (st : (ℕ → ℕ → α) × (ℕ → ℕ → α)) : (ℕ → ℕ → α) × (ℕ → ℕ → α) :=
  (fun i k =>
    if i < ni ∧ k = kk then
      (if g.b i kk - g.a i kk * st.1 i (kk - 1) ≠ 0 then
        g.c i kk * (1 / (g.b i kk - g.a i kk * st.1 i (kk - 1)))
      else 0)
    else st.1 i k,
   fun i k =>
    if i < ni ∧ k = kk then
      (if g.b i kk - g.a i kk * st.1 i (kk - 1) ≠ 0 then
        (g.y i kk - g.a i kk * st.2 i (kk - 1)) *
          (1 / (g.b i kk - g.a i kk * st.1 i (kk - 1)))
      else 0)
    else st.2 i k)

/-- `backward_sweep_last` pass of the demo kernel (demo kernel.cpp 45-47). -/
def backward_sweep_last (ni nk : ℕ) (yp y : ℕ → ℕ → α) : ℕ → ℕ → α :=
  fun i k => if i < ni ∧ k = nk - 1 then yp i (nk - 1) else y i k

/-- `backward_sweep` pass at level `kk` of the demo kernel
(demo kernel.cpp 50-53). -/
def backward_sweep (ni kk : ℕ) (cp yp y : ℕ → ℕ → α) : ℕ → ℕ → α :=
  fun i k => if i < ni ∧ k = kk then yp i kk - cp i kk * y i (kk + 1) else y i k

/-- Forward phase of the demo kernel: first pass plus the `k = 1 .. nk-1`
loop; scratch Views are fresh zero-initialized allocations
(demo kernel.cpp 14-15). -/
def naive_forward (ni nk : ℕ) (g : Grids α) : (ℕ → ℕ → α) × (ℕ → ℕ → α) :=
  (List.range (nk - 1)).foldl (fun st j => forward_sweep ni (j + 1) g st)
    (forward_sweep_first ni g (fun _ _ => 0, fun _ _ => 0))

/-- The demo variant's solver `solve_tridiagonal_kokkos`
(demo kernel.cpp 9-55). -/
def solve_tridiagonal_kokkos (ni nk : ℕ) (g : Grids α) : Grids α :=
  { g with
    y := (List.range (nk - 1)).foldl
      (fun yy j =>
        backward_sweep ni (nk - 2 - j) (naive_forward ni nk g).1
          (naive_forward ni nk g).2 yy)
      (backward_sweep_last ni nk (naive_forward ni nk g).2 g.y) }

end MitgcmDemo

/-- The literal `constexpr double pi = 3.141592653589793` of both kernel
files (reference kernel.cpp line 153, demo kernel.cpp line 70). -/
noncomputable def pi_const : ℝ := 3.141592653589793

/-- The problem generator `init_matrices` (reference kernel.cpp 165-186),
parametrized by `ni` (systems) and `nk` (levels, `Nr` in the source):
`a(i,k) = -0.5` off the first level else `0`;
`b(i,k) = 2.0 + 0.1*sin(pi*(i+1)/ni)`;
`c(i,k) = -0.5` off the last level else `0`;
`y(i,k) = sin(pi*(i+1)/ni) * cos(pi*(k+1)/nk)`. -/
noncomputable def init_matrices (ni nk : ℕ) : Grids ℝ :=
  { a := fun _ k => if k > 0 then -0.5 else 0.0
    b := fun i _ => 2.0 + 0.1 * Real.sin (pi_const * ((i + 1 : ℕ) : ℝ) / ((ni : ℕ) : ℝ))
    c := fun _ k => if k < nk - 1 then -0.5 else 0.0
    y := fun i k => Real.sin (pi_const * ((i + 1 : ℕ) : ℝ) / ((ni : ℕ) : ℝ)) *
      Real.cos (pi_const * ((k + 1 : ℕ) : ℝ) / ((nk : ℕ) : ℝ)) }

/-- Concrete `1 × 2` rational input used to exercise the solver-equivalence
theorem on an explicit instance. -/
def gridsEquiv : Grids ℚ :=
  { a := fun _ k => if k = 0 then 0 else -1
    b := fun _ _ => 3
    c := fun _ k => if k = 1 then 0 else -1
    y := fun _ _ => 2 }

/-- Concrete `1 × 2` rational input whose pivots are all nonzero, used to
exercise the reconstruction theorem. -/
def gridsRecon : Grids ℚ :=
  { a := fun _ k => if k = 0 then 0 else -1
    b := fun _ _ => 2
    c := fun _ k => if k = 1 then 0 else -1
    y := fun _ _ => 1 }

/-- Concrete `1 × 2` rational input with a degenerate first pivot
(`b(0,0) = 0`). -/
def gridsDegen0 : Grids ℚ :=
  { a := fun _ _ => 1
    b := fun _ k => if k = 0 then 0 else 2
    c := fun _ _ => 1
    y := fun _ _ => 1 }

/-- Concrete `2 × 1` rational input for the row-isolation theorem. -/
def gridsIso : Grids ℚ :=
  { a := fun _ _ => 0
    b := fun i _ => if i = 0 then 5 else 2
    c := fun _ _ => 0
    y := fun i _ => if i = 0 then 7 else 1 }

/-- A copy of `gridsIso` corrupted at row `0` (zero diagonal there), agreeing
with it at row `1`. -/
def gridsIsoCorrupt : Grids ℚ :=
  { a := fun _ _ => 0
    b := fun i _ => if i = 0 then 0 else 2
    c := fun _ _ => 0
    y := fun i _ => if i = 0 then 9 else 1 }

/-- The `ni = 1, nk = 1` scenario input `a=[[0]], b=[[2]], c=[[0]], y=[[1]]`. -/
def gridsSingle : Grids ℚ :=
  { a := fun _ _ => 0
    b := fun _ _ => 2
    c := fun _ _ => 0
    y := fun _ _ => 1 }

/-- A `1 × 2` rational input whose diagonal degenerates at every level. -/
def gridsAllZero : Grids ℚ :=
  { a := fun _ _ => 0
    b := fun _ _ => 0
    c := fun _ _ => 1
    y := fun _ _ => 5 }

lemma fwd_zero (a b c y : ℕ → α) :
    fwd a b c y 0
      = if b 0 ≠ 0 then (c 0 * (1 / b 0), y 0 * (1 / b 0)) else (0, 0) := rfl

lemma fwd_succ (a b c y : ℕ → α) (k : ℕ) :
    fwd a b c y (k + 1)
      = if b (k + 1) - a (k + 1) * (fwd a b c y k).1 ≠ 0 then
          (c (k + 1) * (1 / (b (k + 1) - a (k + 1) * (fwd a b c y k).1)),
           (y (k + 1) - a (k + 1) * (fwd a b c y k).2) *
             (1 / (b (k + 1) - a (k + 1) * (fwd a b c y k).1)))
        else (0, 0) := rfl

lemma forward_sweep_apply_fst (ni kk : ℕ) (g : Grids α)
    (st : (ℕ → ℕ → α) × (ℕ → ℕ → α)) (i k : ℕ) :
    (forward_sweep ni kk g st).1 i k
      = if i < ni ∧ k = kk then
          (if g.b i kk - g.a i kk * st.1 i (kk - 1) ≠ 0 then
            g.c i kk * (1 / (g.b i kk - g.a i kk * st.1 i (kk - 1)))
          else 0)
        else st.1 i k := rfl

lemma forward_sweep_apply_snd (ni kk : ℕ) (g : Grids α)
    (st : (ℕ → ℕ → α) × (ℕ → ℕ → α)) (i k : ℕ) :
    (forward_sweep ni kk g st).2 i k
      = if i < ni ∧ k = kk then
          (if g.b i kk - g.a i kk * st.1 i (kk - 1) ≠ 0 then
            (g.y i kk - g.a i kk * st.2 i (kk - 1)) *
              (1 / (g.b i kk - g.a i kk * st.1 i (kk - 1)))
          else 0)
        else st.2 i k := rfl

/-- After the `forward_sweep_first` pass and the first `m` levels of
`forward_sweep` passes, the scratch grids hold the row-wise forward-sweep
values `fwd` at every system `i < ni` and level `k ≤ m`. -/
lemma forward_stage_eq (ni : ℕ) (g : Grids α) :
    ∀ (m i k : ℕ), i < ni → k ≤ m →
      ((List.range m).foldl (fun st j => forward_sweep ni (j + 1) g st)
          (forward_sweep_first ni g (fun _ _ => 0, fun _ _ => 0))).1 i k
        = (fwd (g.a i) (g.b i) (g.c i) (g.y i) k).1 ∧
      ((List.range m).foldl (fun st j => forward_sweep ni (j + 1) g st)
          (forward_sweep_first ni g (fun _ _ => 0, fun _ _ => 0))).2 i k
        = (fwd (g.a i) (g.b i) (g.c i) (g.y i) k).2 := by
  intro m
  induction m with
  | zero =>
    intro i k hi hk
    have hk0 : k = 0 := Nat.le_zero.mp hk
    subst hk0
    by_cases hb : g.b i 0 = 0 <;>
      simp [forward_sweep_first, fwd_zero, hi, hb]
  | succ m ih =>
    intro i k hi hk
    rw [List.range_succ, List.foldl_append]
    simp only [List.foldl_cons, List.foldl_nil]
    rcases Nat.eq_or_lt_of_le hk with heq | hlt
    · subst heq
      have hS1 := (ih i m hi le_rfl).1
      have hS2 := (ih i m hi le_rfl).2
      constructor
      · rw [forward_sweep_apply_fst, if_pos ⟨hi, rfl⟩, Nat.add_sub_cancel, hS1,
          fwd_succ]
        by_cases ht :
            g.b i (m + 1) - g.a i (m + 1) *
              (fwd (g.a i) (g.b i) (g.c i) (g.y i) m).1 = 0
        · rw [if_neg (not_not_intro ht), if_neg (not_not_intro ht)]
        · rw [if_pos ht, if_pos ht]
      · rw [forward_sweep_apply_snd, if_pos ⟨hi, rfl⟩, Nat.add_sub_cancel, hS1,
          hS2, fwd_succ]
        by_cases ht :
            g.b i (m + 1) - g.a i (m + 1) *
              (fwd (g.a i) (g.b i) (g.c i) (g.y i) m).1 = 0
        · rw [if_neg (not_not_intro ht), if_neg (not_not_intro ht)]
        · rw [if_pos ht, if_pos ht]
    · have hkm : k ≤ m := by omega
      have h := ih i k hi hkm
      have hne : ¬(i < ni ∧ k = m + 1) := fun hcon => by omega
      constructor
      · rw [forward_sweep_apply_fst, if_neg hne]
        exact h.1
      · rw [forward_sweep_apply_snd, if_neg hne]
        exact h.2

/-- After the whole forward phase of the naive solver, the scratch grids
hold exactly the row-wise forward-sweep values. -/
lemma naive_forward_eq (ni nk : ℕ) (g : Grids α) (i k : ℕ)
    (hi : i < ni) (hk : k < nk) :
    (naive_forward ni nk g).1 i k = (fwd (g.a i) (g.b i) (g.c i) (g.y i) k).1 ∧
    (naive_forward ni nk g).2 i k = (fwd (g.a i) (g.b i) (g.c i) (g.y i) k).2 :=
  forward_stage_eq ni g (nk - 1) i k hi (by omega)

lemma backward_sweep_apply (ni kk : ℕ) (cp yp y : ℕ → ℕ → α) (i k : ℕ) :
    backward_sweep ni kk cp yp y i k
      = if i < ni ∧ k = kk then yp i kk - cp i kk * y i (kk + 1)
        else y i k := rfl

lemma backward_sweep_last_apply (ni nk : ℕ) (yp y : ℕ → ℕ → α) (i k : ℕ) :
    backward_sweep_last ni nk yp y i k
      = if i < ni ∧ k = nk - 1 then yp i (nk - 1) else y i k := rfl

/-- After `backward_sweep_last` and the first `j` `backward_sweep` passes of
the naive solver, every level `k` with `nk-1-j ≤ k < nk` of every system
`i < ni` already holds the row-wise Thomas solution. -/
lemma backward_stage_eq (ni nk : ℕ) (g : Grids α) :
    ∀ (j i k : ℕ), j ≤ nk - 1 → i < ni → nk - 1 - j ≤ k → k < nk →
      ((List.range j).foldl
          (fun yy j' =>
            backward_sweep ni (nk - 2 - j') (naive_forward ni nk g).1
              (naive_forward ni nk g).2 yy)
          (backward_sweep_last ni nk (naive_forward ni nk g).2 g.y)) i k
        = thomasRow nk (g.a i) (g.b i) (g.c i) (g.y i) k := by
  intro j
  induction j with
  | zero =>
    intro i k _ hi hk1 hk2
    have hk : k = nk - 1 := by omega
    subst hk
    simp only [List.range_zero, List.foldl_nil]
    rw [backward_sweep_last_apply, if_pos ⟨hi, rfl⟩,
      (naive_forward_eq ni nk g i (nk - 1) hi (by omega)).2]
    unfold thomasRow
    rw [Nat.sub_self]
    rfl
  | succ j ihj =>
    intro i k hj hi hk1 hk2
    rw [List.range_succ, List.foldl_append]
    simp only [List.foldl_cons, List.foldl_nil]
    by_cases hk : k = nk - 2 - j
    · subst hk
      rw [backward_sweep_apply, if_pos ⟨hi, rfl⟩]
      have hidx : nk - 2 - j + 1 = nk - 1 - j := by omega
      rw [hidx, ihj i (nk - 1 - j) (by omega) hi (by omega) (by omega),
        (naive_forward_eq ni nk g i (nk - 2 - j) hi (by omega)).1,
        (naive_forward_eq ni nk g i (nk - 2 - j) hi (by omega)).2]
      unfold thomasRow
      have h1 : nk - 1 - (nk - 2 - j) = j + 1 := by omega
      have h2 : nk - 1 - (nk - 1 - j) = j := by omega
      rw [h1, h2]
      rfl
    · rw [backward_sweep_apply, if_neg (fun hcon => by omega)]
      exact ihj i k (by omega) hi (by omega) hk2

/-- Every written entry of the naive solver's output equals the row-wise
Thomas recurrence value. -/
lemma solve_naive_y (ni nk : ℕ) (g : Grids α) (i k : ℕ)
    (hi : i < ni) (hk : k < nk) :
    (solve_tridiagonal_kokkos_naive ni nk g).y i k
      = thomasRow nk (g.a i) (g.b i) (g.c i) (g.y i) k := by
  have h := backward_stage_eq ni nk g (nk - 1) i k le_rfl hi (by omega) hk
  exact h

/-- Every written entry of the fused solver's output equals the row-wise
Thomas recurrence value. -/
lemma solve_optimized_y (ni nk : ℕ) (g : Grids α) (i k : ℕ)
    (hi : i < ni) (hk : k < nk) :
    (solve_tridiagonal_kokkos_optimized ni nk g).y i k
      = thomasRow nk (g.a i) (g.b i) (g.c i) (g.y i) k := by
  simp [solve_tridiagonal_kokkos_optimized, hi, hk]

lemma pivot_zero (a b c y : ℕ → α) : pivot a b c y 0 = b 0 := rfl

lemma pivot_succ (a b c y : ℕ → α) (k : ℕ) :
    pivot a b c y (k + 1)
      = b (k + 1) - a (k + 1) * (fwd a b c y k).1 := rfl

lemma backFrom_succ (nk : ℕ) (a b c y : ℕ → α) (j : ℕ) :
    backFrom nk a b c y (j + 1)
      = (fwd a b c y (nk - 2 - j)).2 -
          (fwd a b c y (nk - 2 - j)).1 * backFrom nk a b c y j := rfl

/-- At the last written level the backward sweep just copies `y_prime`. -/
lemma thomasRow_last (nk : ℕ) (a b c y : ℕ → α) (k : ℕ) (hk : k = nk - 1) :
    thomasRow nk a b c y k = (fwd a b c y k).2 := by
  subst hk
  unfold thomasRow
  rw [Nat.sub_self]
  rfl

/-- Away from the last level the backward sweep follows the recurrence
`result k = y_prime k - c_prime k * result (k+1)`. -/
lemma thomasRow_step (nk : ℕ) (a b c y : ℕ → α) (k : ℕ) (hk : k < nk - 1) :
    thomasRow nk a b c y k
      = (fwd a b c y k).2 - (fwd a b c y k).1 * thomasRow nk a b c y (k + 1) := by
  unfold thomasRow
  have h1 : nk - 1 - k = (nk - 2 - k) + 1 := by omega
  have h2 : nk - 2 - (nk - 2 - k) = k := by omega
  have h3 : nk - 1 - (k + 1) = nk - 2 - k := by omega
  rw [h1, h3, backFrom_succ, h2]

/-- A level whose pivot is nonzero takes the division branch of the
forward sweep (`c_prime` component). -/
lemma fwd_fst_of_ne (a b c y : ℕ → α) (k : ℕ) (h : pivot a b c y k ≠ 0) :
    (fwd a b c y k).1 = c k * (1 / pivot a b c y k) := by
  cases k with
  | zero =>
    rw [pivot_zero] at h ⊢
    rw [fwd_zero, if_pos h]
  | succ n =>
    rw [pivot_succ] at h ⊢
    rw [fwd_succ, if_pos h]

/-- A level whose pivot is nonzero takes the division branch of the
forward sweep (`y_prime` component, first level). -/
lemma fwd_snd_zero_of_ne (a b c y : ℕ → α) (h : pivot a b c y 0 ≠ 0) :
    (fwd a b c y 0).2 = y 0 * (1 / b 0) := by
  rw [pivot_zero] at h
  rw [fwd_zero, if_pos h]

/-- A level whose pivot is nonzero takes the division branch of the
forward sweep (`y_prime` component, later levels). -/
lemma fwd_snd_succ_of_ne (a b c y : ℕ → α) (k : ℕ)
    (h : pivot a b c y (k + 1) ≠ 0) :
    (fwd a b c y (k + 1)).2
      = (y (k + 1) - a (k + 1) * (fwd a b c y k).2) *
          (1 / pivot a b c y (k + 1)) := by
  rw [pivot_succ] at h ⊢
  rw [fwd_succ, if_pos h]

lemma pivot_mul_cp (a b c y : ℕ → α) (k : ℕ) (h : pivot a b c y k ≠ 0) :
    pivot a b c y k * (fwd a b c y k).1 = c k := by
  rw [fwd_fst_of_ne a b c y k h, mul_one_div, mul_comm, div_mul_cancel₀ _ h]

lemma pivot_mul_yp_zero (a b c y : ℕ → α) (h : pivot a b c y 0 ≠ 0) :
    b 0 * (fwd a b c y 0).2 = y 0 := by
  rw [fwd_snd_zero_of_ne a b c y h, mul_one_div, mul_comm]
  rw [pivot_zero] at h
  rw [div_mul_cancel₀ _ h]

lemma pivot_mul_yp_succ (a b c y : ℕ → α) (k : ℕ)
    (h : pivot a b c y (k + 1) ≠ 0) :
    pivot a b c y (k + 1) * (fwd a b c y (k + 1)).2
      = y (k + 1) - a (k + 1) * (fwd a b c y k).2 := by
  rw [fwd_snd_succ_of_ne a b c y k h, mul_one_div, mul_comm, div_mul_cancel₀ _ h]

/-- Correctness of the row-wise Thomas recurrence: when every pivot of a row
is nonzero, the solution it produces satisfies the original tridiagonal
equations (`a`-term dropped at the first level, `c`-term at the last). -/
lemma thomas_reconstruction (nk : ℕ) (a b c y : ℕ → α)
    (hpiv : ∀ m, m < nk → pivot a b c y m ≠ 0) (k : ℕ) (hk : k < nk) :
    (if 0 < k then a k * thomasRow nk a b c y (k - 1) else 0)
      + b k * thomasRow nk a b c y k
      + (if k < nk - 1 then c k * thomasRow nk a b c y (k + 1) else 0)
      = y k := by
  rcases Nat.lt_or_ge k (nk - 1) with hklt | hkge
  · rw [if_pos hklt]
    cases k with
    | zero =>
      rw [if_neg (lt_irrefl 0)]
      have h1 := thomasRow_step nk a b c y 0 hklt
      have h3 := pivot_mul_cp a b c y 0 (hpiv 0 hk)
      have h4 := pivot_mul_yp_zero a b c y (hpiv 0 hk)
      rw [pivot_zero] at h3
      linear_combination b 0 * h1 + h4 - thomasRow nk a b c y (0 + 1) * h3
    | succ n =>
      rw [if_pos (Nat.succ_pos n), Nat.add_sub_cancel]
      have hnlt : n < nk - 1 := by omega
      have h1 := thomasRow_step nk a b c y n hnlt
      have h2 := thomasRow_step nk a b c y (n + 1) hklt
      have h3 := pivot_mul_cp a b c y (n + 1) (hpiv (n + 1) hk)
      have h4 := pivot_mul_yp_succ a b c y n (hpiv (n + 1) hk)
      have h5 := pivot_succ a b c y n
      linear_combination a (n + 1) * h1 - thomasRow nk a b c y (n + 1) * h5
        + pivot a b c y (n + 1) * h2 + h4
        - thomasRow nk a b c y (n + 1 + 1) * h3
  · rw [if_neg (by omega : ¬ k < nk - 1)]
    have hke : k = nk - 1 := by omega
    cases k with
    | zero =>
      rw [if_neg (lt_irrefl 0)]
      have hlast := thomasRow_last nk a b c y 0 hke
      have h4 := pivot_mul_yp_zero a b c y (hpiv 0 hk)
      linear_combination b 0 * hlast + h4
    | succ n =>
      rw [if_pos (Nat.succ_pos n), Nat.add_sub_cancel]
      have hnlt : n < nk - 1 := by omega
      have h1 := thomasRow_step nk a b c y n hnlt
      have hlast := thomasRow_last nk a b c y (n + 1) hke
      have h4 := pivot_mul_yp_succ a b c y n (hpiv (n + 1) hk)
      have h5 := pivot_succ a b c y n
      linear_combination a (n + 1) * h1 - thomasRow nk a b c y (n + 1) * h5
        + pivot a b c y (n + 1) * hlast + h4

/-- The forward sweep of a row depends only on that row's entries at levels
up to `k`. -/
lemma fwd_congr (a b c y a' b' c' y' : ℕ → α) :
    ∀ k, (∀ m, m ≤ k → a m = a' m ∧ b m = b' m ∧ c m = c' m ∧ y m = y' m) →
      fwd a b c y k = fwd a' b' c' y' k := by
  intro k
  induction k with
  | zero =>
    intro h
    obtain ⟨_, hb, hc, hy⟩ := h 0 le_rfl
    rw [fwd_zero, fwd_zero, hb, hc, hy]
  | succ n ih =>
    intro h
    have hrec := ih fun m hm => h m (by omega)
    obtain ⟨ha, hb, hc, hy⟩ := h (n + 1) le_rfl
    rw [fwd_succ, fwd_succ, hrec, ha, hb, hc, hy]

/-- The backward sweep of a row depends only on that row's entries at levels
below `nk`. -/
lemma backFrom_congr (nk : ℕ) (a b c y a' b' c' y' : ℕ → α) (hnk : 1 ≤ nk)
    (h : ∀ m, m < nk → a m = a' m ∧ b m = b' m ∧ c m = c' m ∧ y m = y' m) :
    ∀ j, backFrom nk a b c y j = backFrom nk a' b' c' y' j := by
  intro j
  induction j with
  | zero =>
    show (fwd a b c y (nk - 1)).2 = (fwd a' b' c' y' (nk - 1)).2
    rw [fwd_congr a b c y a' b' c' y' (nk - 1) fun m hm => h m (by omega)]
  | succ n ih =>
    rw [backFrom_succ, backFrom_succ, ih,
      fwd_congr a b c y a' b' c' y' (nk - 2 - n) fun m hm => h m (by omega)]

/-- One row's Thomas solution depends only on that row's entries. -/
lemma thomasRow_congr (nk : ℕ) (a b c y a' b' c' y' : ℕ → α) (hnk : 1 ≤ nk)
    (h : ∀ m, m < nk → a m = a' m ∧ b m = b' m ∧ c m = c' m ∧ y m = y' m)
    (k : ℕ) :
    thomasRow nk a b c y k = thomasRow nk a' b' c' y' k :=
  backFrom_congr nk a b c y a' b' c' y' hnk h (nk - 1 - k)

/-- A level whose pivot is zero takes the degenerate branch and writes
`(0, 0)` into the scratch pair. -/
lemma fwd_eq_zero_of_pivot_zero (a b c y : ℕ → α) (k : ℕ)
    (h : pivot a b c y k = 0) : fwd a b c y k = (0, 0) := by
  cases k with
  | zero =>
    rw [pivot_zero] at h
    rw [fwd_zero, if_neg (not_not_intro h)]
  | succ n =>
    rw [pivot_succ] at h
    rw [fwd_succ, if_neg (not_not_intro h)]

/-- If every pivot of a row is zero, the whole backward sweep produces `0`. -/
lemma backFrom_zero_of_pivots_zero (nk : ℕ) (a b c y : ℕ → α) (hnk : 1 ≤ nk)
    (h : ∀ m, m < nk → pivot a b c y m = 0) :
    ∀ j, backFrom nk a b c y j = 0 := by
  intro j
  induction j with
  | zero =>
    show (fwd a b c y (nk - 1)).2 = 0
    rw [fwd_eq_zero_of_pivot_zero a b c y (nk - 1) (h (nk - 1) (by omega))]
  | succ n ih =>
    rw [backFrom_succ, ih,
      fwd_eq_zero_of_pivot_zero a b c y (nk - 2 - n) (h (nk - 2 - n) (by omega))]
    simp

/-- For rows shaped like the generator's output (`a ≡ -0.5` off level 0,
`b ≥ 1.9`, each `c` entry `-0.5` or `0`), every pivot stays at least `1.4`
and every `c_prime` value lies in `(-1, 0]`. -/
lemma pivot_bounds_of_rows (a b c y : ℕ → ℝ)
    (ha : ∀ k, 0 < k → a k = -0.5)
    (hb : ∀ k, 1.9 ≤ b k)
    (hc : ∀ k, c k = -0.5 ∨ c k = 0) :
    ∀ k, 1.4 ≤ pivot a b c y k ∧
      -1 < (fwd a b c y k).1 ∧ (fwd a b c y k).1 ≤ 0 := by
  intro k
  induction k with
  | zero =>
    have hp : (1.4:ℝ) ≤ pivot a b c y 0 := by
      rw [pivot_zero]; linarith [hb 0]
    refine ⟨hp, ?_⟩
    have hne : pivot a b c y 0 ≠ 0 := by intro hcon; rw [hcon] at hp; norm_num at hp
    rw [fwd_fst_of_ne a b c y 0 hne, pivot_zero]
    have hbpos : (0:ℝ) < b 0 := by linarith [hb 0]
    have hinv : (0:ℝ) < 1 / b 0 := by positivity
    have hinvle : 1 / b 0 ≤ 1 / 1.9 := by
      apply one_div_le_one_div_of_le (by norm_num) (hb 0)
    rcases hc 0 with h0 | h0 <;> rw [h0]
    · constructor <;> nlinarith
    · constructor <;> simp
  | succ n ih =>
    have hp : (1.4:ℝ) ≤ pivot a b c y (n + 1) := by
      rw [pivot_succ, ha (n + 1) (Nat.succ_pos n)]
      nlinarith [hb (n + 1), ih.2.1, ih.2.2]
    refine ⟨hp, ?_⟩
    have hne : pivot a b c y (n + 1) ≠ 0 := by
      intro hcon; rw [hcon] at hp; norm_num at hp
    rw [fwd_fst_of_ne a b c y (n + 1) hne]
    have hppos : (0:ℝ) < pivot a b c y (n + 1) := by linarith
    have hinv : (0:ℝ) < 1 / pivot a b c y (n + 1) := by positivity
    have hinvle : 1 / pivot a b c y (n + 1) ≤ 1 / 1.4 :=
      one_div_le_one_div_of_le (by norm_num) hp
    rcases hc (n + 1) with h0 | h0 <;> rw [h0]
    · constructor <;> nlinarith
    · constructor <;> simp


/-- C1: for every valid input (`ni ≥ 1`, `nk ≥ 1` and `ni × nk` grids), the
naive row-parallel solver and the fused team-local solver produce identical
results entry for entry. -/
theorem naive_optimized_equivalent {α : Type} [Field α] [DecidableEq α]
    (ni nk : ℕ) (hni : 1 ≤ ni) (hnk : 1 ≤ nk) (g : Grids α) (i k : ℕ)
    (hi : i < ni) (hk : k < nk) :
    (solve_tridiagonal_kokkos_naive ni nk g).y i k
      = (solve_tridiagonal_kokkos_optimized ni nk g).y i k := by
  rw [solve_naive_y ni nk g i k hi hk, solve_optimized_y ni nk g i k hi hk]

/-- Witness for C1 at `ni = 1`, `nk = 2`, a concrete rational input. -/
theorem naive_optimized_equivalent_witness :
    1 ≤ 1 ∧ 1 ≤ 2 ∧ 0 < 1 ∧ 1 < 2 ∧
    (solve_tridiagonal_kokkos_naive 1 2 gridsEquiv).y 0 1
      = (solve_tridiagonal_kokkos_optimized 1 2 gridsEquiv).y 0 1 :=
  ⟨le_rfl, by norm_num, Nat.one_pos, by norm_num,
    naive_optimized_equivalent 1 2 le_rfl (by norm_num) gridsEquiv 0 1
      Nat.one_pos (by norm_num)⟩

/-- C2: on a row all of whose pivots are nonzero, the naive solver's result
satisfies the original tridiagonal equations, with the `a`-term dropped at
`k = 0` and the `c`-term dropped at `k = nk-1`. -/
theorem solver_reconstruction {α : Type} [Field α] [DecidableEq α]
    (ni nk : ℕ) (g : Grids α) (i : ℕ) (hi : i < ni)
    (hpiv : ∀ m, m < nk → pivot (g.a i) (g.b i) (g.c i) (g.y i) m ≠ 0)
    (k : ℕ) (hk : k < nk) :
    (if 0 < k then
        g.a i k * (solve_tridiagonal_kokkos_naive ni nk g).y i (k - 1)
      else 0)
      + g.b i k * (solve_tridiagonal_kokkos_naive ni nk g).y i k
      + (if k < nk - 1 then
          g.c i k * (solve_tridiagonal_kokkos_naive ni nk g).y i (k + 1)
        else 0)
      = g.y i k := by
  have h := thomas_reconstruction nk (g.a i) (g.b i) (g.c i) (g.y i) hpiv k hk
  by_cases h0 : 0 < k <;> by_cases hlast : k < nk - 1
  · rw [if_pos h0, if_pos hlast] at h ⊢
    rw [solve_naive_y ni nk g i (k - 1) hi (by omega),
      solve_naive_y ni nk g i k hi hk,
      solve_naive_y ni nk g i (k + 1) hi (by omega)]
    exact h
  · rw [if_pos h0, if_neg hlast] at h ⊢
    rw [solve_naive_y ni nk g i (k - 1) hi (by omega),
      solve_naive_y ni nk g i k hi hk]
    exact h
  · rw [if_neg h0, if_pos hlast] at h ⊢
    rw [solve_naive_y ni nk g i k hi hk,
      solve_naive_y ni nk g i (k + 1) hi (by omega)]
    exact h
  · rw [if_neg h0, if_neg hlast] at h ⊢
    rw [solve_naive_y ni nk g i k hi hk]
    exact h

/-- Witness for C2 at `ni = 1`, `nk = 2`, `k = 0`, a concrete rational row
with nonzero pivots. -/
theorem solver_reconstruction_witness :
    0 < 1 ∧
    (∀ m, m < 2 →
      pivot (gridsRecon.a 0) (gridsRecon.b 0) (gridsRecon.c 0)
        (gridsRecon.y 0) m ≠ 0) ∧
    ((if 0 < (0:ℕ) then
        gridsRecon.a 0 0 * (solve_tridiagonal_kokkos_naive 1 2 gridsRecon).y 0 (0 - 1)
      else 0)
      + gridsRecon.b 0 0 * (solve_tridiagonal_kokkos_naive 1 2 gridsRecon).y 0 0
      + (if (0:ℕ) < 2 - 1 then
          gridsRecon.c 0 0 * (solve_tridiagonal_kokkos_naive 1 2 gridsRecon).y 0 (0 + 1)
        else 0)
      = gridsRecon.y 0 0) := by
  have hpiv : ∀ m, m < 2 →
      pivot (gridsRecon.a 0) (gridsRecon.b 0) (gridsRecon.c 0)
        (gridsRecon.y 0) m ≠ 0 := by
    intro m hm
    interval_cases m
    · rw [pivot_zero]; norm_num [gridsRecon]
    · rw [pivot_succ, fwd_zero]; norm_num [gridsRecon]
  exact ⟨Nat.one_pos, hpiv,
    solver_reconstruction 1 2 gridsRecon 0 Nat.one_pos hpiv 0 (by norm_num)⟩

/-- C3: when `b(i,0) = 0`, the naive solver writes `c_prime(i,0) = 0` and
`y_prime(i,0) = 0`, and `result(i,0)` is exactly the backward-substitution
value `y_prime(i,0) - c_prime(i,0) * result(i,1) = 0 - 0 * result(i,1)`,
i.e. `0`. -/
theorem degenerate_first_pivot_policy {α : Type} [Field α] [DecidableEq α]
    (ni nk : ℕ) (g : Grids α) (i : ℕ) (hi : i < ni) (hnk : 2 ≤ nk)
    (hb : g.b i 0 = 0) :
    (naive_forward ni nk g).1 i 0 = 0 ∧
    (naive_forward ni nk g).2 i 0 = 0 ∧
    (solve_tridiagonal_kokkos_naive ni nk g).y i 0
      = (naive_forward ni nk g).2 i 0
        - (naive_forward ni nk g).1 i 0
          * (solve_tridiagonal_kokkos_naive ni nk g).y i 1 ∧
    (solve_tridiagonal_kokkos_naive ni nk g).y i 0 = 0 := by
  have hf := naive_forward_eq ni nk g i 0 hi (by omega)
  have h0 : fwd (g.a i) (g.b i) (g.c i) (g.y i) 0 = (0, 0) :=
    fwd_eq_zero_of_pivot_zero _ _ _ _ 0 (by rw [pivot_zero]; exact hb)
  have hcp : (naive_forward ni nk g).1 i 0 = 0 := by rw [hf.1, h0]
  have hyp : (naive_forward ni nk g).2 i 0 = 0 := by rw [hf.2, h0]
  have hr0 : (solve_tridiagonal_kokkos_naive ni nk g).y i 0 = 0 := by
    rw [solve_naive_y ni nk g i 0 hi (by omega),
      thomasRow_step nk _ _ _ _ 0 (by omega), h0]
    simp
  refine ⟨hcp, hyp, ?_, hr0⟩
  rw [hr0, hcp, hyp]
  simp

/-- Witness for C3 at `ni = 1`, `nk = 2`, a concrete input with
`b(0,0) = 0`. -/
theorem degenerate_first_pivot_policy_witness :
    0 < 1 ∧ 2 ≤ 2 ∧ gridsDegen0.b 0 0 = 0 ∧
    ((naive_forward 1 2 gridsDegen0).1 0 0 = 0 ∧
     (naive_forward 1 2 gridsDegen0).2 0 0 = 0 ∧
     (solve_tridiagonal_kokkos_naive 1 2 gridsDegen0).y 0 0
       = (naive_forward 1 2 gridsDegen0).2 0 0
         - (naive_forward 1 2 gridsDegen0).1 0 0
           * (solve_tridiagonal_kokkos_naive 1 2 gridsDegen0).y 0 1 ∧
     (solve_tridiagonal_kokkos_naive 1 2 gridsDegen0).y 0 0 = 0) :=
  ⟨Nat.one_pos, le_rfl, rfl,
    degenerate_first_pivot_policy 1 2 gridsDegen0 0 Nat.one_pos le_rfl rfl⟩

/-- C4: two inputs that agree on every entry of row `i2` (and may differ
arbitrarily at another row `i1`) yield identical results at row `i2`, for
both solvers. -/
theorem row_isolation {α : Type} [Field α] [DecidableEq α] (ni nk : ℕ)
    (g g' : Grids α) (i1 i2 : ℕ) (hne : i1 ≠ i2) (hi2 : i2 < ni)
    (hrow : ∀ m, m < nk →
      g.a i2 m = g'.a i2 m ∧ g.b i2 m = g'.b i2 m ∧
      g.c i2 m = g'.c i2 m ∧ g.y i2 m = g'.y i2 m)
    (k : ℕ) (hk : k < nk) :
    (solve_tridiagonal_kokkos_naive ni nk g).y i2 k
      = (solve_tridiagonal_kokkos_naive ni nk g').y i2 k ∧
    (solve_tridiagonal_kokkos_optimized ni nk g).y i2 k
      = (solve_tridiagonal_kokkos_optimized ni nk g').y i2 k := by
  have ht := thomasRow_congr nk (g.a i2) (g.b i2) (g.c i2) (g.y i2)
    (g'.a i2) (g'.b i2) (g'.c i2) (g'.y i2) (by omega) hrow k
  constructor
  · rw [solve_naive_y ni nk g i2 k hi2 hk,
      solve_naive_y ni nk g' i2 k hi2 hk]
    exact ht
  · rw [solve_optimized_y ni nk g i2 k hi2 hk,
      solve_optimized_y ni nk g' i2 k hi2 hk]
    exact ht

/-- Witness for C4: corrupting row `0` of a `2 × 1` input (zero diagonal,
different right-hand side) leaves row `1`'s result unchanged. -/
theorem row_isolation_witness :
    (0 ≠ 1) ∧ 1 < 2 ∧
    (∀ m, m < 1 →
      gridsIso.a 1 m = gridsIsoCorrupt.a 1 m ∧
      gridsIso.b 1 m = gridsIsoCorrupt.b 1 m ∧
      gridsIso.c 1 m = gridsIsoCorrupt.c 1 m ∧
      gridsIso.y 1 m = gridsIsoCorrupt.y 1 m) ∧
    ((solve_tridiagonal_kokkos_naive 2 1 gridsIso).y 1 0
       = (solve_tridiagonal_kokkos_naive 2 1 gridsIsoCorrupt).y 1 0 ∧
     (solve_tridiagonal_kokkos_optimized 2 1 gridsIso).y 1 0
       = (solve_tridiagonal_kokkos_optimized 2 1 gridsIsoCorrupt).y 1 0) := by
  have hrow : ∀ m, m < 1 →
      gridsIso.a 1 m = gridsIsoCorrupt.a 1 m ∧
      gridsIso.b 1 m = gridsIsoCorrupt.b 1 m ∧
      gridsIso.c 1 m = gridsIsoCorrupt.c 1 m ∧
      gridsIso.y 1 m = gridsIsoCorrupt.y 1 m := by
    intro m hm
    exact ⟨rfl, rfl, rfl, rfl⟩
  exact ⟨Nat.zero_ne_one, Nat.one_lt_two, hrow,
    row_isolation 2 1 gridsIso gridsIsoCorrupt 0 1 Nat.zero_ne_one
      Nat.one_lt_two hrow 0 Nat.one_pos⟩

/-- C5: when `nk = 1` the solver returns `y(i,0)/b(i,0)` if `b(i,0) ≠ 0`
and `0` otherwise. -/
theorem single_level_closed_form {α : Type} [Field α] [DecidableEq α]
    (ni : ℕ) (g : Grids α) (i : ℕ) (hi : i < ni) :
    (solve_tridiagonal_kokkos_naive ni 1 g).y i 0
      = if g.b i 0 ≠ 0 then g.y i 0 / g.b i 0 else 0 := by
  rw [solve_naive_y ni 1 g i 0 hi Nat.one_pos,
    thomasRow_last 1 _ _ _ _ 0 rfl, fwd_zero, apply_ite Prod.snd]
  by_cases hb : g.b i 0 = 0
  · rw [if_neg (not_not_intro hb), if_neg (not_not_intro hb)]
  · rw [if_pos hb, if_pos hb]
    exact mul_one_div _ _

/-- Witness for C5: the `ni = 1, nk = 1` scenario with
`a=[[0]], b=[[2]], c=[[0]], y=[[1]]` yields exactly `0.5`. -/
theorem single_level_closed_form_witness :
    0 < 1 ∧ (solve_tridiagonal_kokkos_naive 1 1 gridsSingle).y 0 0 = 0.5 := by
  refine ⟨Nat.one_pos, ?_⟩
  rw [single_level_closed_form 1 gridsSingle 0 Nat.one_pos]
  norm_num [gridsSingle]

/-- C6: a system whose pivot degenerates to zero at every level
(`b(i,0) = 0` and every later `tmpVar = 0`) gets an all-zero result row. -/
theorem all_degenerate_zero_result {α : Type} [Field α] [DecidableEq α]
    (ni nk : ℕ) (g : Grids α) (i : ℕ) (hi : i < ni)
    (hb0 : g.b i 0 = 0)
    (hpiv : ∀ m, m < nk → 1 ≤ m →
      pivot (g.a i) (g.b i) (g.c i) (g.y i) m = 0)
    (k : ℕ) (hk : k < nk) :
    (solve_tridiagonal_kokkos_naive ni nk g).y i k = 0 := by
  have hall : ∀ m, m < nk → pivot (g.a i) (g.b i) (g.c i) (g.y i) m = 0 := by
    intro m hm
    cases m with
    | zero => rw [pivot_zero]; exact hb0
    | succ n => exact hpiv (n + 1) hm (by omega)
  rw [solve_naive_y ni nk g i k hi hk]
  exact backFrom_zero_of_pivots_zero nk _ _ _ _ (by omega) hall (nk - 1 - k)

/-- Witness for C6 at `ni = 1`, `nk = 2` with an identically zero diagonal. -/
theorem all_degenerate_zero_result_witness :
    0 < 1 ∧ gridsAllZero.b 0 0 = 0 ∧
    (∀ m, m < 2 → 1 ≤ m →
      pivot (gridsAllZero.a 0) (gridsAllZero.b 0) (gridsAllZero.c 0)
        (gridsAllZero.y 0) m = 0) ∧
    (solve_tridiagonal_kokkos_naive 1 2 gridsAllZero).y 0 1 = 0 := by
  have hpiv : ∀ m, m < 2 → 1 ≤ m →
      pivot (gridsAllZero.a 0) (gridsAllZero.b 0) (gridsAllZero.c 0)
        (gridsAllZero.y 0) m = 0 := by
    intro m hm hm1
    interval_cases m
    rw [pivot_succ, fwd_zero]
    norm_num [gridsAllZero]
  exact ⟨Nat.one_pos, rfl, hpiv,
    all_degenerate_zero_result 1 2 gridsAllZero 0 Nat.one_pos rfl hpiv 1
      Nat.one_lt_two⟩

/-- C7: the generator fills `a` with `-0.5` off the first level (else `0`),
`b` with the level-independent value `2.0 + 0.1*sin(pi*(i+1)/ni)` which is
always above `1.8`, `c` with `-0.5` off the last level (else `0`), and `y`
with `sin(pi*(i+1)/ni) * cos(pi*(k+1)/nk)`. -/
theorem init_matrices_formulas (ni nk i k : ℕ) :
    (init_matrices ni nk).a i k = (if k > 0 then -0.5 else 0.0) ∧
    (init_matrices ni nk).b i k
      = 2.0 + 0.1 * Real.sin (pi_const * ((i + 1 : ℕ) : ℝ) / ((ni : ℕ) : ℝ)) ∧
    (init_matrices ni nk).b i k = (init_matrices ni nk).b i 0 ∧
    1.8 < (init_matrices ni nk).b i k ∧
    (init_matrices ni nk).c i k = (if k < nk - 1 then -0.5 else 0.0) ∧
    (init_matrices ni nk).y i k
      = Real.sin (pi_const * ((i + 1 : ℕ) : ℝ) / ((ni : ℕ) : ℝ)) *
        Real.cos (pi_const * ((k + 1 : ℕ) : ℝ) / ((nk : ℕ) : ℝ)) := by
  refine ⟨rfl, rfl, rfl, ?_, rfl, rfl⟩
  show (1.8:ℝ) < 2.0 + 0.1 * Real.sin (pi_const * ((i + 1 : ℕ) : ℝ) / ((ni : ℕ) : ℝ))
  nlinarith [Real.neg_one_le_sin (pi_const * ((i + 1 : ℕ) : ℝ) / ((ni : ℕ) : ℝ))]

/-- C8: both solvers leave every entry of the coefficient grids `a`, `b`,
`c` unchanged; only `y` (the result buffer) and the scratch pair are
written. -/
theorem solvers_preserve_coefficients {α : Type} [Field α] [DecidableEq α]
    (ni nk : ℕ) (g : Grids α) (i k : ℕ) :
    (solve_tridiagonal_kokkos_naive ni nk g).a i k = g.a i k ∧
    (solve_tridiagonal_kokkos_naive ni nk g).b i k = g.b i k ∧
    (solve_tridiagonal_kokkos_naive ni nk g).c i k = g.c i k ∧
    (solve_tridiagonal_kokkos_optimized ni nk g).a i k = g.a i k ∧
    (solve_tridiagonal_kokkos_optimized ni nk g).b i k = g.b i k ∧
    (solve_tridiagonal_kokkos_optimized ni nk g).c i k = g.c i k :=
  ⟨rfl, rfl, rfl, rfl, rfl, rfl⟩

/-- C9: on generator-produced inputs the degenerate-pivot branch is
unreachable: `b(i,0) ≥ 1.9`, every pivot is strictly positive (hence
nonzero), and every `c_prime` value stays in `(-1, 0]`. -/
theorem init_pivots_nondegenerate (ni nk i : ℕ)
    (hni : 1 ≤ ni) (hnk : 1 ≤ nk) (hi : i < ni) :
    1.9 ≤ (init_matrices ni nk).b i 0 ∧
    ∀ k, k < nk →
      0 < pivot ((init_matrices ni nk).a i) ((init_matrices ni nk).b i)
            ((init_matrices ni nk).c i) ((init_matrices ni nk).y i) k ∧
      pivot ((init_matrices ni nk).a i) ((init_matrices ni nk).b i)
            ((init_matrices ni nk).c i) ((init_matrices ni nk).y i) k ≠ 0 ∧
      -1 < (fwd ((init_matrices ni nk).a i) ((init_matrices ni nk).b i)
            ((init_matrices ni nk).c i) ((init_matrices ni nk).y i) k).1 ∧
      (fwd ((init_matrices ni nk).a i) ((init_matrices ni nk).b i)
            ((init_matrices ni nk).c i) ((init_matrices ni nk).y i) k).1 ≤ 0 := by
  have hb : ∀ k, (1.9:ℝ) ≤ (init_matrices ni nk).b i k := by
    intro k
    show (1.9:ℝ) ≤ 2.0 + 0.1 * Real.sin (pi_const * ((i + 1 : ℕ) : ℝ) / ((ni : ℕ) : ℝ))
    nlinarith [Real.neg_one_le_sin (pi_const * ((i + 1 : ℕ) : ℝ) / ((ni : ℕ) : ℝ))]
  have ha : ∀ k, 0 < k → (init_matrices ni nk).a i k = -0.5 := by
    intro k hk
    show (if k > 0 then (-0.5:ℝ) else 0.0) = -0.5
    rw [if_pos hk]
  have hc : ∀ k, (init_matrices ni nk).c i k = -0.5 ∨
      (init_matrices ni nk).c i k = 0 := by
    intro k
    by_cases hk : k < nk - 1
    · left
      show (if k < nk - 1 then (-0.5:ℝ) else 0.0) = -0.5
      rw [if_pos hk]
    · right
      show (if k < nk - 1 then (-0.5:ℝ) else 0.0) = 0
      rw [if_neg hk]
      norm_num
  have hmain := pivot_bounds_of_rows ((init_matrices ni nk).a i)
    ((init_matrices ni nk).b i) ((init_matrices ni nk).c i)
    ((init_matrices ni nk).y i) ha hb hc
  refine ⟨hb 0, fun k hk => ?_⟩
  obtain ⟨hp, hcp1, hcp2⟩ := hmain k
  exact ⟨lt_of_lt_of_le (by norm_num) hp,
    ne_of_gt (lt_of_lt_of_le (by norm_num) hp), hcp1, hcp2⟩

/-- Witness for C9 at `ni = 1`, `nk = 1`, `i = 0`. -/
theorem init_pivots_nondegenerate_witness :
    1 ≤ 1 ∧ 0 < 1 ∧
    (1.9 ≤ (init_matrices 1 1).b 0 0 ∧
     ∀ k, k < 1 →
       0 < pivot ((init_matrices 1 1).a 0) ((init_matrices 1 1).b 0)
             ((init_matrices 1 1).c 0) ((init_matrices 1 1).y 0) k ∧
       pivot ((init_matrices 1 1).a 0) ((init_matrices 1 1).b 0)
             ((init_matrices 1 1).c 0) ((init_matrices 1 1).y 0) k ≠ 0 ∧
       -1 < (fwd ((init_matrices 1 1).a 0) ((init_matrices 1 1).b 0)
             ((init_matrices 1 1).c 0) ((init_matrices 1 1).y 0) k).1 ∧
       (fwd ((init_matrices 1 1).a 0) ((init_matrices 1 1).b 0)
             ((init_matrices 1 1).c 0) ((init_matrices 1 1).y 0) k).1 ≤ 0) :=
  ⟨le_rfl, Nat.one_pos,
    init_pivots_nondegenerate 1 1 0 le_rfl le_rfl Nat.one_pos⟩

/-- C10: the demo variant's `solve_tridiagonal_kokkos` and the reference
variant's `solve_tridiagonal_kokkos_naive` compute the same result grid on
every input. -/
theorem demo_matches_reference_naive {α : Type} [Field α] [DecidableEq α]
    (ni nk : ℕ) (g : Grids α) :
    (MitgcmDemo.solve_tridiagonal_kokkos ni nk g).y
      = (solve_tridiagonal_kokkos_naive ni nk g).y := rfl
